import Mathlib

/-!
Verification of the `synset` lexical-graph library.

The development shallowly embeds the core of the repository:
the graph data model delivered by the loader, the indexer and query layer
(`src/query.ts`), and the SQLite exporter (`src/export-sqlite.ts`).

JavaScript `Map` objects are modelled as association lists in insertion
order (`Map.set` on an existing key updates in place, a new key is appended
at the end; lookup returns the first — and, with unique keys, only — match).
JavaScript `Set` objects are modelled as duplicate-free lists in insertion
order.  Truthiness checks on strings (`if (word)`) become emptiness checks,
and `undefined` becomes `Option`.
-/

namespace SynsetLib

/-- A lemma of a lexical entry: written form plus part of speech. -/
structure Lem where
  writtenForm : String
  partOfSpeech : String
deriving DecidableEq, Repr

/-- A typed relation from a sense to another sense (by identifier). -/
structure SenseRelation where
  relType : String
  target : String
deriving DecidableEq, Repr

/-- A sense: identifier, reference to its synset, outbound sense relations. -/
structure Sense where
  id : String
  synset : String
  senseRelations : List SenseRelation
deriving DecidableEq, Repr

/-- A lexical entry: identifier, ordered lemmas, ordered senses. -/
structure LexicalEntry where
  id : String
  lemmas : List Lem
  senses : List Sense
deriving DecidableEq, Repr

/-- A definition string attached to a synset (`inner` is the text). -/
structure Defn where
  inner : String
deriving DecidableEq, Repr

/-- An example string attached to a synset. -/
structure Exmpl where
  inner : String
deriving DecidableEq, Repr

/-- A typed relation from a synset to another synset (by identifier). -/
structure SynsetRelation where
  relType : String
  target : String
deriving DecidableEq, Repr

/-- A synset: identifier, part of speech, definitions, examples, member
entry identifiers and outbound synset relations, all in declaration order. -/
structure Synset where
  id : String
  partOfSpeech : String
  definitions : List Defn
  examples : List Exmpl
  members : List String
  synsetRelations : List SynsetRelation
deriving DecidableEq, Repr

/-- The root container handed over by the loader. -/
structure Lexicon where
  lexicalEntries : List LexicalEntry
  synsets : List Synset
deriving DecidableEq, Repr

/-- Lookup in a JS `Map` modelled as an association list: first matching key. -/
def mapLookup {α : Type} (m : List (String × α)) (k : String) : Option α :=
  (m.find? (fun p => p.1 = k)).map (·.2)

/-- `Map.set`: update in place if the key is present, append otherwise. -/
def mapSet {α : Type} (m : List (String × α)) (k : String) (v : α) : List (String × α) :=
  if m.any (fun p => p.1 = k) then
    m.map (fun p => if p.1 = k then (k, v) else p)
  else
    m ++ [(k, v)]

/-- `Set.add`: append if not already present. -/
def setAdd (s : List String) (x : String) : List String :=
  if x ∈ s then s else s ++ [x]

/-- Model of JS `String.prototype.toLowerCase()`: lowercase each character.
(`Char.toLower` handles the ASCII range; this is the standard shallow model of
JS case folding and is all the claims about case-insensitivity depend on.) -/
def strLower (s : String) : String :=
  ⟨s.data.map Char.toLower⟩

/-- Model of JS `String.prototype.toUpperCase()`. -/
def strUpper (s : String) : String :=
  ⟨s.data.map Char.toUpper⟩

theorem mapLookup_nil {α : Type} (k : String) : mapLookup ([] : List (String × α)) k = none := rfl

theorem mapLookup_eq_none {α : Type} (m : List (String × α)) (k : String) :
    mapLookup m k = none ↔ k ∉ m.map (·.1) := by
  induction m with
  | nil => simp [mapLookup]
  | cons p m ih =>
    by_cases hp : p.1 = k
    · simp [mapLookup, List.find?, hp]
    · simp [mapLookup, List.find?, hp, Ne.symm hp] at ih ⊢
      exact ih

theorem mapLookup_mem {α : Type} {m : List (String × α)} {k : String} {v : α}
    (h : mapLookup m k = some v) : (k, v) ∈ m := by
  simp only [mapLookup, Option.map_eq_some'] at h
  obtain ⟨p, hp, hv⟩ := h
  have hpred : p.1 = k := by simpa using List.find?_some hp
  have hmem := List.mem_of_find?_eq_some hp
  rw [← hv, ← hpred]
  simpa using hmem

theorem mapLookup_replace_present {α : Type} {m : List (String × α)} {k : String} (v : α)
    (h : m.any (fun p => p.1 = k) = true) :
    mapLookup (m.map (fun p => if p.1 = k then (k, v) else p)) k = some v := by
  induction m with
  | nil => simp at h
  | cons p m ih =>
    by_cases hp : p.1 = k
    · simp [mapLookup, List.find?, hp]
    · simp only [List.any_cons, Bool.or_eq_true, decide_eq_true_eq] at h
      rcases h with h | h
      · exact absurd h hp
      · simpa [mapLookup, List.find?, hp] using ih h

theorem mapLookup_append_single_self {α : Type} {m : List (String × α)} {k : String} (v : α)
    (h : m.any (fun p => p.1 = k) ≠ true) :
    mapLookup (m ++ [(k, v)]) k = some v := by
  induction m with
  | nil => simp [mapLookup, List.find?]
  | cons p m ih =>
    rw [List.any_cons] at h
    have h1 : ¬ p.1 = k := by
      intro e
      exact h (by simp [e])
    have h2 : (m.any fun p => decide (p.1 = k)) ≠ true := by
      intro e
      exact h (by simp [e])
    simpa [mapLookup, List.find?, h1] using ih h2

theorem mapLookup_mapSet_self {α : Type} (m : List (String × α)) (k : String) (v : α) :
    mapLookup (mapSet m k v) k = some v := by
  unfold mapSet
  split
  · exact mapLookup_replace_present v (by assumption)
  · exact mapLookup_append_single_self v (by assumption)

theorem mapLookup_replace_ne {α : Type} {m : List (String × α)} {k k' : String} (v : α)
    (h : k' ≠ k) :
    mapLookup (m.map (fun p => if p.1 = k then (k, v) else p)) k' = mapLookup m k' := by
  induction m with
  | nil => rfl
  | cons p m ih =>
    by_cases hp : p.1 = k
    · have h1 : ¬ (k = k') := fun e => h e.symm
      have h2 : ¬ (p.1 = k') := by rw [hp]; exact h1
      simpa [mapLookup, List.find?, hp, h1, h2] using ih
    · by_cases hk' : p.1 = k'
      · simp [mapLookup, List.find?, hp, hk', h]
      · simpa [mapLookup, List.find?, hp, hk'] using ih

theorem mapLookup_append_single_ne {α : Type} {m : List (String × α)} {k k' : String} (v : α)
    (h : k' ≠ k) :
    mapLookup (m ++ [(k, v)]) k' = mapLookup m k' := by
  induction m with
  | nil =>
    have hk : ¬ (k = k') := fun e => h e.symm
    simp [mapLookup, List.find?, hk]
  | cons p m ih =>
    by_cases hk' : p.1 = k'
    · simp [mapLookup, List.find?, hk']
    · simpa [mapLookup, List.find?, hk'] using ih

theorem mapLookup_mapSet_ne {α : Type} (m : List (String × α)) {k k' : String} (v : α)
    (h : k' ≠ k) : mapLookup (mapSet m k v) k' = mapLookup m k' := by
  unfold mapSet
  split
  · exact mapLookup_replace_ne v h
  · exact mapLookup_append_single_ne v h

theorem replace_map_fst {α : Type} (m : List (String × α)) (k : String) (v : α) :
    (m.map (fun p => if p.1 = k then (k, v) else p)).map (·.1) = m.map (·.1) := by
  induction m with
  | nil => rfl
  | cons p m ih =>
    by_cases hp : p.1 = k <;> simp [hp, ih]

theorem mapSet_keys {α : Type} (m : List (String × α)) (k : String) (v : α) :
    (mapSet m k v).map (·.1) =
      if m.any (fun p => p.1 = k) then m.map (·.1) else m.map (·.1) ++ [k] := by
  unfold mapSet
  split
  · exact replace_map_fst m k v
  · simp

/-- A definition paired with its source synset (query layer result row). -/
structure DefinitionResult where
  text : String
  synset : Synset
  partOfSpeech : String
deriving DecidableEq, Repr

/-- A synonym with its source context. -/
structure SynonymResult where
  word : String
  entry : LexicalEntry
  synset : Synset
deriving DecidableEq, Repr

/-- Indexed WordNet data for fast lookups (`WordNetIndex` in `src/query.ts`). -/
structure WordNetIndex where
  synsets : List (String × Synset)
  senses : List (String × Sense)
  entries : List (String × LexicalEntry)
  byWord : List (String × List LexicalEntry)
  sensesByWord : List (String × List Sense)
  synsetsByWord : List (String × List Synset)
  lexicon : Lexicon
deriving DecidableEq, Repr

/-- Mutable state of `buildIndex` while walking the lexical entries. -/
structure IdxAcc where
  senses : List (String × Sense)
  entries : List (String × LexicalEntry)
  byWord : List (String × List LexicalEntry)
  sensesByWord : List (String × List Sense)
  synsetsByWord : List (String × List Synset)
deriving DecidableEq, Repr

/-- `entry.lemmas[0]?.writtenForm.toLowerCase()` followed by the JS truthiness
test `if (word)`: `none` when the entry has no lemma or the lowercased first
written form is the empty string. -/
def canonicalWordOf (e : LexicalEntry) : Option String :=
  match e.lemmas with
  | [] => none
  | l :: _ =>
    let w := strLower l.writtenForm
    if w = "" then none else some w

/-- Body of the inner `for (const sense of entry.senses)` loop of `buildIndex`. -/
def buildIndexSenseStep (synsets : List (String × Synset)) (word : String)
    (st : IdxAcc) (sense : Sense) : IdxAcc :=
  let st := { st with senses := mapSet st.senses sense.id sense }
  let st :=
    { st with sensesByWord := mapSet st.sensesByWord word ((mapLookup st.sensesByWord word).getD [] ++ [sense]) }
  match mapLookup synsets sense.synset with
  | none => st
  | some syn =>
    let existingSynsets := (mapLookup st.synsetsByWord word).getD []
    -- the source tests `existingSynsets.includes(synset)`, i.e. JS reference
    -- equality; every element of the list was fetched from the id-keyed
    -- `synsets` map, which holds exactly one object per id, so reference
    -- equality coincides with id equality here
    if existingSynsets.any (fun t => t.id = syn.id) then st
    else { st with synsetsByWord := mapSet st.synsetsByWord word (existingSynsets ++ [syn]) }

/-- Body of the `for (const entry of lexicon.lexicalEntries)` loop of `buildIndex`.
Note that the `senses` registration sits inside the `if (word)` block in the
source, exactly as modelled here. -/
def buildIndexEntryStep (synsets : List (String × Synset))
    (st : IdxAcc) (entry : LexicalEntry) : IdxAcc :=
  let st := { st with entries := mapSet st.entries entry.id entry }
  match canonicalWordOf entry with
  | none => st
  | some word =>
    let st :=
      { st with byWord := mapSet st.byWord word ((mapLookup st.byWord word).getD [] ++ [entry]) }
    entry.senses.foldl (buildIndexSenseStep synsets word) st

/-- `buildIndex` from `src/query.ts`. -/
def buildIndex (lexicon : Lexicon) : WordNetIndex :=
  let synsets := lexicon.synsets.foldl (fun m s => mapSet m s.id s) []
  let st := lexicon.lexicalEntries.foldl (buildIndexEntryStep synsets) ⟨[], [], [], [], []⟩
  { synsets := synsets, senses := st.senses, entries := st.entries,
    byWord := st.byWord, sensesByWord := st.sensesByWord,
    synsetsByWord := st.synsetsByWord, lexicon := lexicon }

/-- Get a synset by ID. -/
def getSynset (index : WordNetIndex) (id : String) : Option Synset :=
  mapLookup index.synsets id

/-- Get a sense by ID. -/
def getSense (index : WordNetIndex) (id : String) : Option Sense :=
  mapLookup index.senses id

/-- Get a lexical entry by ID. -/
def getLexicalEntry (index : WordNetIndex) (id : String) : Option LexicalEntry :=
  mapLookup index.entries id

/-- Find all lexical entries for a word (`index.byWord.get(word.toLowerCase()) || []`). -/
def findWord (index : WordNetIndex) (word : String) : List LexicalEntry :=
  (mapLookup index.byWord (strLower word)).getD []

/-- Find all senses for a word. -/
def findSenses (index : WordNetIndex) (word : String) : List Sense :=
  (mapLookup index.sensesByWord (strLower word)).getD []

/-- Find all synsets for a word. -/
def findSynsets (index : WordNetIndex) (word : String) : List Synset :=
  (mapLookup index.synsetsByWord (strLower word)).getD []

/-- Get all definitions for a word. -/
def getDefinitions (index : WordNetIndex) (word : String) : List DefinitionResult :=
  (findSynsets index word).flatMap (fun synset =>
    synset.definitions.map (fun d =>
      { text := d.inner, synset := synset, partOfSpeech := synset.partOfSpeech }))

/-- Get related synsets by relation type: filter the outbound relations to the
requested type, resolve each target, drop unresolved targets
(`.filter((s): s is Synset => s !== undefined)`). -/
def getRelated (index : WordNetIndex) (synset : Synset) (relType : String) : List Synset :=
  ((synset.synsetRelations.filter (fun r => r.relType = relType)).map
    (fun r => mapLookup index.synsets r.target)).filterMap id

/-- Get hypernyms (more general terms) for a word. -/
def getHypernyms (index : WordNetIndex) (word : String) : List Synset :=
  (findSynsets index word).flatMap (fun s => getRelated index s "hypernym")

/-- Get hyponyms (more specific terms) for a word. -/
def getHyponyms (index : WordNetIndex) (word : String) : List Synset :=
  (findSynsets index word).flatMap (fun s => getRelated index s "hyponym")

/-- Body of the inner member loop of `getSynonyms`: state is the `seen` set
together with the `results` array. -/
def getSynonymsStep (index : WordNetIndex) (lowerWord : String) (synset : Synset)
    (st : List String × List SynonymResult) (memberId : String) :
    List String × List SynonymResult :=
  match mapLookup index.entries memberId with
  | none => st
  | some entry =>
    match entry.lemmas with
    | [] => st
    | l :: _ =>
      let lem := l.writtenForm
      if lem ≠ "" ∧ strLower lem ≠ lowerWord ∧ lem ∉ st.1 then
        (st.1 ++ [lem], st.2 ++ [{ word := lem, entry := entry, synset := synset }])
      else st

/-- Get synonyms for a word (words in the same synsets). -/
def getSynonyms (index : WordNetIndex) (word : String) : List SynonymResult :=
  let synsets := findSynsets index word
  let lowerWord := strLower word
  (synsets.foldl (fun st synset =>
    synset.members.foldl (getSynonymsStep index lowerWord synset) st) ([], [])).2

/-- Get the written form of the first lemma for each resolvable member of a
synset; members that do not resolve, or resolve to an entry without a first
lemma, are filtered out. -/
def getSynsetWords (index : WordNetIndex) (synset : Synset) : List String :=
  (((synset.members.map (fun id => mapLookup index.entries id)).filterMap id).map
    (fun e => e.lemmas.head?.map (fun l => l.writtenForm))).filterMap id

/-- Lexicographic comparison of character lists, modelling the default JS
`Array.prototype.sort()` string comparator used on the word list. -/
def charsLe : List Char → List Char → Bool
  | [], _ => true
  | _ :: _, [] => false
  | a :: as, b :: bs => if a < b then true else if b < a then false else charsLe as bs

/-- Lexicographic `≤` on strings, as a `Prop`, for `List.insertionSort`. -/
def strLeP (a b : String) : Prop :=
  charsLe a.data b.data = true

instance : DecidableRel strLeP := fun a b => by
  unfold strLeP
  infer_instance

theorem charsLe_total (a b : List Char) : charsLe a b = true ∨ charsLe b a = true := by
  induction a generalizing b with
  | nil => left; rfl
  | cons x xs ih =>
    cases b with
    | nil => right; rfl
    | cons y ys =>
      rcases lt_trichotomy x y with h | h | h
      · left; simp [charsLe, h]
      · subst h
        rcases ih ys with h2 | h2
        · left; simp [charsLe, h2]
        · right; simp [charsLe, h2]
      · right; simp [charsLe, h]

theorem charsLe_trans {a b c : List Char} (hab : charsLe a b = true)
    (hbc : charsLe b c = true) : charsLe a c = true := by
  induction a generalizing b c with
  | nil => rfl
  | cons x xs ih =>
    cases b with
    | nil => simp [charsLe] at hab
    | cons y ys =>
      cases c with
      | nil => simp [charsLe] at hbc
      | cons z zs =>
        by_cases hxy : x < y
        · by_cases hyz : y < z
          · simp [charsLe, lt_trans hxy hyz]
          · by_cases hzy : z < y
            · simp [charsLe, hyz, hzy] at hbc
            · have : y = z := le_antisymm (not_lt.mp hzy) (not_lt.mp hyz)
              subst this
              simp [charsLe, hxy]
        · by_cases hyx : y < x
          · simp [charsLe, hxy, hyx] at hab
          · have hxyeq : x = y := le_antisymm (not_lt.mp hyx) (not_lt.mp hxy)
            subst hxyeq
            simp only [charsLe, if_neg (lt_irrefl x)] at hab
            by_cases hyz : x < z
            · simp [charsLe, hyz]
            · by_cases hzy : z < x
              · simp [charsLe, hyz, hzy] at hbc
              · have : x = z := le_antisymm (not_lt.mp hzy) (not_lt.mp hyz)
                subst this
                simp only [charsLe, if_neg (lt_irrefl x)] at hbc ⊢
                exact ih hab hbc

instance : IsTotal String strLeP :=
  ⟨fun a b => charsLe_total a.data b.data⟩

instance : IsTrans String strLeP :=
  ⟨fun _ _ _ => charsLe_trans⟩

/-- Hexadecimal digit value of a character, if any. -/
def hexDigitVal (c : Char) : Option Nat :=
  if c.isDigit then some (c.toNat - 48)
  else if 97 ≤ c.toNat ∧ c.toNat ≤ 102 then some (c.toNat - 87)
  else if 65 ≤ c.toNat ∧ c.toNat ≤ 70 then some (c.toNat - 55)
  else none

/-- The five predefined XML entities (after the ampersand). -/
def namedEntities : List (List Char × Char) :=
  [("amp;".data, Char.ofNat 38), ("lt;".data, Char.ofNat 60), ("gt;".data, Char.ofNat 62),
   ("apos;".data, Char.ofNat 39), ("quot;".data, Char.ofNat 34)]

/-- Accumulate decimal digits into a number. -/
def decFold (ds : List Char) : Nat :=
  ds.foldl (fun n d => n * 10 + (d.toNat - 48)) 0

/-- Accumulate hexadecimal digits into a number. -/
def hexFold (ds : List Char) : Nat :=
  ds.foldl (fun n d => n * 16 + ((hexDigitVal d).getD 0)) 0

/-- Fuel-indexed decoding loop; each iteration consumes at least one input
character, so fuel equal to the input length suffices. -/
def decodeAux : Nat → List Char → List Char
  | 0, cs => cs
  | _ + 1, [] => []
  | fuel + 1, c :: cs =>
    if c = Char.ofNat 38 then
      match namedEntities.find? (fun p => p.1.isPrefixOf cs) with
      | some p => p.2 :: decodeAux fuel (cs.drop p.1.length)
      | none =>
        match cs with
        | h :: t =>
          if h = Char.ofNat 35 then
            match t with
            | x :: t2 =>
              if x = Char.ofNat 120 ∨ x = Char.ofNat 88 then
                let ds := t2.takeWhile (fun d => (hexDigitVal d).isSome)
                let rest := t2.dropWhile (fun d => (hexDigitVal d).isSome)
                match rest with
                | semi :: r =>
                  if semi = Char.ofNat 59 ∧ ds ≠ [] then
                    Char.ofNat (hexFold ds) :: decodeAux fuel r
                  else c :: decodeAux fuel cs
                | [] => c :: decodeAux fuel cs
              else
                let ds := t.takeWhile Char.isDigit
                let rest := t.dropWhile Char.isDigit
                match rest with
                | semi :: r =>
                  if semi = Char.ofNat 59 ∧ ds ≠ [] then
                    Char.ofNat (decFold ds) :: decodeAux fuel r
                  else c :: decodeAux fuel cs
                | [] => c :: decodeAux fuel cs
            | [] => c :: decodeAux fuel cs
          else c :: decodeAux fuel cs
        | [] => [c]
    else c :: decodeAux fuel cs

/-- Modelled from the spec: `decodeXmlEntities` is defined in `src/helpers.ts`,
which is not among the provided sources (only its test file
`src/helpers.test.ts` is).  Its behavior is reconstructed from those tests:
the five predefined XML entities and decimal/hexadecimal numeric character
references are decoded, unrecognized sequences are preserved, plain text is
returned unchanged.  None of the claims depend on the decoded text itself. -/
def decodeXmlEntities (s : String) : String :=
  ⟨decodeAux s.data.length s.data⟩

/-- A row of the `words` table: surrogate id, lowercase word, display form. -/
structure WordRow where
  id : Nat
  word : String
  display : String
deriving DecidableEq, Repr

/-- A row of the `synsets` table. -/
structure SynsetRow where
  id : String
  pos : String
  definition : String
deriving DecidableEq, Repr

/-- A row of the `word_synsets` table. -/
structure WSRow where
  wordId : Nat
  synsetId : String
  senseOrder : Nat
deriving DecidableEq, Repr

/-- A row of the `synset_examples` table. -/
structure ExampleRow where
  synsetId : String
  exampleText : String
  exampleOrder : Nat
deriving DecidableEq, Repr

/-- A row of the `synset_relations` table. -/
structure SynRelRow where
  sourceId : String
  targetId : String
  relType : String
deriving DecidableEq, Repr

/-- A row of the `sense_relations` table. -/
structure SenseRelRow where
  sourceWordId : Nat
  sourceSynsetId : String
  targetWordId : Nat
  targetSynsetId : String
  relType : String
deriving DecidableEq, Repr

/-- `INSERT OR IGNORE` semantics: keep a row only if no earlier kept row has
the same primary-key projection. -/
def applyInsertIgnore {ρ κ : Type} [DecidableEq κ] (keyOf : ρ → κ) (rows : List ρ) : List ρ :=
  rows.foldl (fun acc r => if acc.any (fun r0 => keyOf r0 = keyOf r) then acc else acc ++ [r]) []

/-- The exporter's canonical word (`entry.lemmas[0]?.writtenForm` with the JS
truthiness check applied before lowercasing, unlike `canonicalWordOf` which
lowercases first — `"".toLowerCase()` is still falsy, so both agree). -/
def canonicalWordExport (e : LexicalEntry) : Option String :=
  match e.lemmas with
  | [] => none
  | l :: _ => if l.writtenForm = "" then none else some (strLower l.writtenForm)

/-- Body of the `for (const entry of lexicon.lexicalEntries)` loop that builds
the exporter's `wordToEntries` map. -/
def w2eStep (m : List (String × List LexicalEntry)) (e : LexicalEntry) :
    List (String × List LexicalEntry) :=
  match canonicalWordExport e with
  | none => m
  | some lower => mapSet m lower ((mapLookup m lower).getD [] ++ [e])

/-- Stage 0 of `exportToSQLite`: the `wordToEntries` map, keyed by lowercase
first lemma, each value the entries pushed in lexicon order. -/
def wordToEntries (lx : Lexicon) : List (String × List LexicalEntry) :=
  lx.lexicalEntries.foldl w2eStep []

/-- The `synsetMap` lookup built at the start of `exportToSQLite`. -/
def synsetMapOf (lx : Lexicon) : List (String × Synset) :=
  lx.synsets.foldl (fun m s => mapSet m s.id s) []

/-- `Array.from(wordToEntries.keys()).sort()`. -/
def sortedWords (lx : Lexicon) : List String :=
  List.insertionSort strLeP ((wordToEntries lx).map (·.1))

/-- `entries[0].lemmas[0]?.writtenForm || word`: the display form of a word is
the original casing of the first lemma of the first entry pushed for it. -/
def wordDisplay (w : String) (entries : List LexicalEntry) : String :=
  match entries with
  | [] => w
  | e :: _ =>
    match e.lemmas with
    | [] => w
    | l :: _ => if l.writtenForm = "" then w else l.writtenForm

/-- The word-insertion loop of stage 1: walks the sorted words, inserting one
row per word and recording the surrogate id assigned by the dense counter
(SQLite `INTEGER PRIMARY KEY` rowids are 1, 2, 3, … on a fresh table, matching
the `wordId` counter in the source). -/
def wordsFoldAux (w2e : List (String × List LexicalEntry)) :
    List String → List WordRow × List (String × Nat) × Nat →
    List WordRow × List (String × Nat) × Nat
  | [], st => st
  | w :: ws, (rows, ids, n) =>
    match mapLookup w2e w with
    | none => wordsFoldAux w2e ws (rows, ids, n)
    | some entries =>
      wordsFoldAux w2e ws
        (rows ++ [⟨n + 1, w, wordDisplay w entries⟩], ids ++ [(w, n + 1)], n + 1)

/-- The rows of the `words` table. -/
def wordsRows (lx : Lexicon) : List WordRow :=
  (wordsFoldAux (wordToEntries lx) (sortedWords lx) ([], [], 0)).1

/-- The `wordIds` map built during stage 1. -/
def wordIds (lx : Lexicon) : List (String × Nat) :=
  (wordsFoldAux (wordToEntries lx) (sortedWords lx) ([], [], 0)).2.1

/-- Stage 2 prelude: the `usedSynsetIds` set — every synset identifier
referenced by any sense of any entry of the word map, in first-encounter
order, taken verbatim without resolving it. -/
def usedSynsetIds (lx : Lexicon) : List String :=
  (wordToEntries lx).foldl (fun acc p =>
    p.2.foldl (fun acc e => e.senses.foldl (fun acc s => setAdd acc s.synset) acc) acc) []

/-- The rows of the `synsets` table: only those used ids that resolve in
`synsetMap` produce a row. -/
def synsetsRows (lx : Lexicon) : List SynsetRow :=
  applyInsertIgnore (fun r => r.id)
    ((usedSynsetIds lx).filterMap (fun id =>
      (mapLookup (synsetMapOf lx) id).map (fun syn =>
        { id := id
          pos := syn.partOfSpeech
          definition :=
            match syn.definitions with
            | [] => ""
            | d :: _ => decodeXmlEntities d.inner })))

/-- Inner sense loop of stage 3: emit one `word_synsets` edge per sense with
the per-word running `senseOrder` counter. -/
def wsSensesAux (wId : Nat) : List Sense → List WSRow × Nat → List WSRow × Nat
  | [], st => st
  | s :: ss, (acc, so) => wsSensesAux wId ss (acc ++ [⟨wId, s.synset, so⟩], so + 1)

/-- Entry loop of stage 3: the counter keeps running across all entries of the
same word. -/
def wsEntriesAux (wId : Nat) : List LexicalEntry → List WSRow × Nat → List WSRow × Nat
  | [], st => st
  | e :: es, st => wsEntriesAux wId es (wsSensesAux wId e.senses st)

/-- Word loop of stage 3: `senseOrder` restarts at 0 for each word; words whose
id does not resolve (or is the falsy 0 — impossible, ids start at 1) are
skipped, mirroring `if (!wId) continue`. -/
def wsWordsAux (ids : List (String × Nat)) :
    List (String × List LexicalEntry) → List WSRow → List WSRow
  | [], acc => acc
  | (w, entries) :: rest, acc =>
    match mapLookup ids w with
    | none => wsWordsAux ids rest acc
    | some wId =>
      if wId = 0 then wsWordsAux ids rest acc
      else wsWordsAux ids rest (wsEntriesAux wId entries (acc, 0)).1

/-- The stream of `INSERT OR IGNORE` calls issued against `word_synsets`. -/
def wordSynsetsEmitted (lx : Lexicon) : List WSRow :=
  wsWordsAux (wordIds lx) (wordToEntries lx) []

/-- The stored rows of the `word_synsets` table (primary key
`(word_id, synset_id)` with conflict-ignore). -/
def wordSynsetsTable (lx : Lexicon) : List WSRow :=
  applyInsertIgnore (fun r => (r.wordId, r.synsetId)) (wordSynsetsEmitted lx)

/-- Stage 4 helper: example rows of one synset, 0-based positions, empty
decoded examples skipped (`if (example)`). -/
def exampleRowsAux (id : String) : Nat → List Exmpl → List ExampleRow
  | _, [] => []
  | i, ex :: rest =>
    let e := decodeXmlEntities ex.inner
    if e = "" then exampleRowsAux id (i + 1) rest
    else ⟨id, e, i⟩ :: exampleRowsAux id (i + 1) rest

/-- The stored rows of the `synset_examples` table. -/
def synsetExamplesTable (lx : Lexicon) : List ExampleRow :=
  applyInsertIgnore (fun r => (r.synsetId, r.exampleOrder))
    ((usedSynsetIds lx).foldl (fun acc id =>
      match mapLookup (synsetMapOf lx) id with
      | none => acc
      | some syn => acc ++ exampleRowsAux id 0 syn.examples) [])

/-- The stream of `INSERT OR IGNORE` calls issued against `synset_relations`:
for each used synset id that resolves, its outbound relations whose target id
is again in `usedSynsetIds`. -/
def synsetRelationsEmitted (lx : Lexicon) : List SynRelRow :=
  (usedSynsetIds lx).foldl (fun acc id =>
    match mapLookup (synsetMapOf lx) id with
    | none => acc
    | some syn =>
      acc ++ syn.synsetRelations.filterMap (fun rel =>
        if rel.target ∈ usedSynsetIds lx then some ⟨id, rel.target, rel.relType⟩
        else none)) []

/-- The stored rows of the `synset_relations` table. -/
def synsetRelationsTable (lx : Lexicon) : List SynRelRow :=
  applyInsertIgnore (fun r => (r.sourceId, r.targetId, r.relType)) (synsetRelationsEmitted lx)

/-- Stage 6 prelude: reverse map from sense id to (word id, synset id). -/
def senseToWordSynset (lx : Lexicon) : List (String × (Nat × String)) :=
  (wordToEntries lx).foldl (fun acc p =>
    match mapLookup (wordIds lx) p.1 with
    | none => acc
    | some wId =>
      if wId = 0 then acc
      else p.2.foldl (fun acc e =>
        e.senses.foldl (fun acc s => mapSet acc s.id (wId, s.synset)) acc) acc) []

/-- The stream of `INSERT OR IGNORE` calls issued against `sense_relations`. -/
def senseRelationsEmitted (lx : Lexicon) : List SenseRelRow :=
  (wordToEntries lx).foldl (fun acc p =>
    match mapLookup (wordIds lx) p.1 with
    | none => acc
    | some wId =>
      if wId = 0 then acc
      else p.2.foldl (fun acc e =>
        e.senses.foldl (fun acc s =>
          acc ++ s.senseRelations.filterMap (fun rel =>
            (mapLookup (senseToWordSynset lx) rel.target).map (fun t =>
              ⟨wId, s.synset, t.1, t.2, rel.relType⟩))) acc) acc) []

/-- The stored rows of the `sense_relations` table. -/
def senseRelationsTable (lx : Lexicon) : List SenseRelRow :=
  applyInsertIgnore
    (fun r => (r.sourceWordId, r.sourceSynsetId, r.targetWordId, r.targetSynsetId, r.relType))
    (senseRelationsEmitted lx)

/-- The six tables produced by a completed export. -/
structure ExportTables where
  words : List WordRow
  synsets : List SynsetRow
  wordSynsets : List WSRow
  synsetExamples : List ExampleRow
  synsetRelations : List SynRelRow
  senseRelations : List SenseRelRow
deriving DecidableEq, Repr

/-- The full projection computed by a successful export. -/
def exportTables (lx : Lexicon) : ExportTables :=
  { words := wordsRows lx
    synsets := synsetsRows lx
    wordSynsets := wordSynsetsTable lx
    synsetExamples := synsetExamplesTable lx
    synsetRelations := synsetRelationsTable lx
    senseRelations := senseRelationsTable lx }

/-- `exportToSQLite`: the destination is modelled as `Option ExportTables`
(`none` = no file at `outputPath`).  The result is the reported outcome
together with the state of the destination afterwards.  When the file exists
and `overwrite` was not set, the error is thrown before the database is even
opened, so the old destination survives untouched. -/
def exportToSQLite (lexicon : Lexicon) (outputPath : String)
    (dest : Option ExportTables) (overwrite : Bool) :
    Except String ExportTables × Option ExportTables :=
  match dest with
  | some old =>
    if overwrite then
      (Except.ok (exportTables lexicon), some (exportTables lexicon))
    else
      (Except.error s!"File already exists: {outputPath}. Use --overwrite to replace it.",
        some old)
  | none => (Except.ok (exportTables lexicon), some (exportTables lexicon))

theorem char_toNat_ofNat_small {n : Nat} (h : n < 55296) : (Char.ofNat n).toNat = n := by
  have hv : n.isValidChar := Or.inl h
  rw [Char.ofNat, dif_pos hv]
  rfl

theorem char_toLower_toUpper (c : Char) : c.toUpper.toLower = c.toLower := by
  simp only [Char.toUpper, Char.toLower]
  by_cases h1 : c.toNat ≥ 97 ∧ c.toNat ≤ 122
  · rw [if_pos h1]
    have ht : (Char.ofNat (c.toNat - 32)).toNat = c.toNat - 32 :=
      char_toNat_ofNat_small (by omega)
    rw [ht, if_pos (by omega), if_neg (by omega)]
    have : c.toNat - 32 + 32 = c.toNat := by omega
    rw [this, Char.ofNat_toNat]
  · rw [if_neg h1]

theorem strLower_strUpper (w : String) : strLower (strUpper w) = strLower w := by
  unfold strLower strUpper
  simp only [List.map_map]
  have hfun : (Char.toLower ∘ Char.toUpper) = Char.toLower := funext char_toLower_toUpper
  rw [hfun]

theorem length_filterMap_eq_length_filter {α β : Type} (f : α → Option β) (l : List α) :
    (l.filterMap f).length = (l.filter (fun a => (f a).isSome)).length := by
  induction l with
  | nil => rfl
  | cons a l ih => cases h : f a <;> simp [List.filterMap_cons, h, ih]

/-- A small lexicon used as a witness for the case-insensitivity claim. -/
def lxDog : Lexicon :=
  ⟨[⟨"w1", [⟨"Dog", "n"⟩], [⟨"s1", "S1", []⟩]⟩],
   [⟨"S1", "n", [⟨"a canine"⟩], [], ["w1"], []⟩]⟩

/-- C9: `findWord`/`findSenses`/`findSynsets` look their word up after
lowercasing it, so any two spellings with the same lowercase form — in
particular the all-uppercase spelling — give identical results. -/
theorem find_case_insensitive (index : WordNetIndex) (w v : String)
    (h : strLower v = strLower w) :
    findWord index v = findWord index w ∧
    findSenses index v = findSenses index w ∧
    findSynsets index v = findSynsets index w ∧
    findWord index (strUpper w) = findWord index w ∧
    findSenses index (strUpper w) = findSenses index w ∧
    findSynsets index (strUpper w) = findSynsets index w := by
  have hu : strLower (strUpper w) = strLower w := strLower_strUpper w
  unfold findWord findSenses findSynsets
  rw [h, hu]
  exact ⟨rfl, rfl, rfl, rfl, rfl, rfl⟩

/-- Witness for `find_case_insensitive` at the concrete index for `lxDog`,
with query spellings `"DoG"` and `"dog"`. -/
theorem find_case_insensitive_witness :
    findWord (buildIndex lxDog) "DoG" = findWord (buildIndex lxDog) "dog" ∧
    findSenses (buildIndex lxDog) "DoG" = findSenses (buildIndex lxDog) "dog" ∧
    findSynsets (buildIndex lxDog) "DoG" = findSynsets (buildIndex lxDog) "dog" ∧
    findWord (buildIndex lxDog) (strUpper "dog") = findWord (buildIndex lxDog) "dog" ∧
    findSenses (buildIndex lxDog) (strUpper "dog") = findSenses (buildIndex lxDog) "dog" ∧
    findSynsets (buildIndex lxDog) (strUpper "dog") = findSynsets (buildIndex lxDog) "dog" :=
  find_case_insensitive (buildIndex lxDog) "dog" "DoG" (by decide)

/-- C8: if the destination already exists and `overwrite` was not requested,
the export reports a recoverable error and the existing destination is
returned unchanged — the failure happens before any write. -/
theorem export_existing_destination_error (lexicon : Lexicon) (outputPath : String)
    (old : ExportTables) :
    exportToSQLite lexicon outputPath (some old) false =
      (Except.error s!"File already exists: {outputPath}. Use --overwrite to replace it.",
        some old) :=
  rfl

/-- The failing input for the sense-registration claim: one entry with no
lemma and one sense `s1`. -/
def lxNoLemma : Lexicon :=
  ⟨[⟨"e1", [], [⟨"s1", "S1", []⟩]⟩], [⟨"S1", "n", [], [], ["e1"], []⟩]⟩

/-- C2: the claim (and the spec, and the `WordNetIndex` field documentation
"All senses indexed by ID") says every sense is registered in `sensesById`.
The code registers senses inside the `if (word)` block, so the sense of an
entry without a lemma is silently dropped: the input below has a sense `s1`,
yet the built index has an empty sense map and `getSense` cannot resolve it. -/
theorem buildIndex_drops_senses_of_lemmaless_entries :
    (∃ e ∈ lxNoLemma.lexicalEntries, ∃ s ∈ e.senses, s.id = "s1") ∧
    (buildIndex lxNoLemma).senses = [] ∧
    getSense (buildIndex lxNoLemma) "s1" = none ∧
    getLexicalEntry (buildIndex lxNoLemma) "e1" = some ⟨"e1", [], [⟨"s1", "S1", []⟩]⟩ := by
  decide

/-- The counterexample input for the `getSynsetWords` length claim: the
synset's only member resolves in `entriesById`, but the entry has no lemma. -/
def lxMemberNoLemma : Lexicon :=
  ⟨[⟨"e1", [], []⟩], [⟨"S1", "n", [], [], ["e1"], []⟩]⟩

/-- The synset of `lxMemberNoLemma`. -/
def synMemberNoLemma : Synset := ⟨"S1", "n", [], [], ["e1"], []⟩

/-- C4 counterexample: the length of `getSynsetWords` is NOT the number of
members that resolve in `entriesById` — a member resolving to an entry with
no first lemma is also dropped. -/
theorem getSynsetWords_length_cex :
    ¬ ((getSynsetWords (buildIndex lxMemberNoLemma) synMemberNoLemma).length
        = (synMemberNoLemma.members.filter (fun m =>
            (mapLookup (buildIndex lxMemberNoLemma).entries m).isSome)).length) := by
  decide

/-- C4 (amended): `getSynsetWords` maps members through `entriesById` and the
first lemma, in declaration order with no deduplication; its length equals the
number of members that resolve AND whose entry has a first lemma. -/
theorem getSynsetWords_resolvable_with_lemma (index : WordNetIndex) (synset : Synset) :
    getSynsetWords index synset
      = synset.members.filterMap (fun m =>
          (mapLookup index.entries m).bind (fun e =>
            e.lemmas.head?.map (fun l => l.writtenForm))) ∧
    (getSynsetWords index synset).length
      = (synset.members.filter (fun m =>
          ((mapLookup index.entries m).bind (fun e => e.lemmas.head?)).isSome)).length := by
  have h1 : getSynsetWords index synset
      = synset.members.filterMap (fun m =>
          (mapLookup index.entries m).bind (fun e =>
            e.lemmas.head?.map (fun l => l.writtenForm))) := by
    simp only [getSynsetWords, List.filterMap_map, List.filterMap_filterMap,
      Function.comp_def, id_eq]
  refine ⟨h1, ?_⟩
  rw [h1, length_filterMap_eq_length_filter]
  have hpred : ∀ m ∈ synset.members,
      ((mapLookup index.entries m).bind (fun e =>
        e.lemmas.head?.map (fun l => l.writtenForm))).isSome
      = ((mapLookup index.entries m).bind (fun e => e.lemmas.head?)).isSome := by
    intro m _
    cases mapLookup index.entries m with
    | none => rfl
    | some e => simp
  rw [List.filter_congr hpred]

/-- A lexicon used to witness the lookup-miss claim on a non-trivial index. -/
def lxMiss : Lexicon :=
  ⟨[⟨"w1", [⟨"cat", "n"⟩], [⟨"s1", "S1", []⟩]⟩],
   [⟨"S1", "n", [⟨"a feline"⟩], [], ["w1", "ghost"], [⟨"hypernym", "S9"⟩]⟩]⟩

/-- C7: every query operation is total and encodes absence as an empty list or
`none`: unknown identifiers give `none`; an unknown word gives `[]` from
`findWord`/`findSenses`/`findSynsets` and from everything derived from them;
`getRelated` with an unmatched relation type gives `[]`; every synset returned
by `getRelated` comes from a relation of the requested type whose target
resolves (dangling targets are skipped with no placeholder); a synset none of
whose members resolve yields `[]` from `getSynsetWords`. -/
theorem queries_miss_empty (index : WordNetIndex) :
    (∀ id, mapLookup index.synsets id = none → getSynset index id = none) ∧
    (∀ id, mapLookup index.senses id = none → getSense index id = none) ∧
    (∀ id, mapLookup index.entries id = none → getLexicalEntry index id = none) ∧
    (∀ w, mapLookup index.byWord (strLower w) = none → findWord index w = []) ∧
    (∀ w, mapLookup index.sensesByWord (strLower w) = none → findSenses index w = []) ∧
    (∀ w, mapLookup index.synsetsByWord (strLower w) = none →
      findSynsets index w = [] ∧ getDefinitions index w = [] ∧
      getHypernyms index w = [] ∧ getHyponyms index w = [] ∧ getSynonyms index w = []) ∧
    (∀ synset relType, (∀ r ∈ synset.synsetRelations, r.relType ≠ relType) →
      getRelated index synset relType = []) ∧
    (∀ synset relType s, s ∈ getRelated index synset relType →
      ∃ r ∈ synset.synsetRelations, r.relType = relType ∧
        mapLookup index.synsets r.target = some s) ∧
    (∀ synset, (∀ m ∈ synset.members, mapLookup index.entries m = none) →
      getSynsetWords index synset = []) := by
  refine ⟨fun id h => h, fun id h => h, fun id h => h, ?_, ?_, ?_, ?_, ?_, ?_⟩
  · intro w h
    unfold findWord
    rw [h]
    rfl
  · intro w h
    unfold findSenses
    rw [h]
    rfl
  · intro w h
    have hfs : findSynsets index w = [] := by
      unfold findSynsets
      rw [h]
      rfl
    refine ⟨hfs, ?_, ?_, ?_, ?_⟩
    · unfold getDefinitions
      rw [hfs]
      rfl
    · unfold getHypernyms
      rw [hfs]
      rfl
    · unfold getHyponyms
      rw [hfs]
      rfl
    · unfold getSynonyms
      rw [hfs]
      rfl
  · intro synset relType h
    unfold getRelated
    rw [List.filter_eq_nil_iff.mpr (by simpa using h)]
    rfl
  · intro synset relType s hs
    unfold getRelated at hs
    simp only [List.mem_filterMap, List.mem_map, List.mem_filter, id_eq,
      decide_eq_true_eq] at hs
    obtain ⟨o, ⟨r, ⟨hrmem, hrt⟩, hro⟩, ho⟩ := hs
    exact ⟨r, hrmem, hrt, by rw [hro, ho]⟩
  · intro synset h
    simp only [getSynsetWords, List.filterMap_map, List.filterMap_filterMap,
      Function.comp_def, id_eq]
    exact List.filterMap_eq_nil_iff.mpr (fun m hm => by rw [h m hm]; rfl)

/-- Witness for `queries_miss_empty` on the index of `lxMiss`: an unknown id,
an unknown word, an unmatched relation type, a relation list whose matching
target dangles, and a synset with only unresolvable members. -/
theorem queries_miss_empty_witness :
    getSynset (buildIndex lxMiss) "nope" = none ∧
    getSense (buildIndex lxMiss) "nope" = none ∧
    getLexicalEntry (buildIndex lxMiss) "nope" = none ∧
    findWord (buildIndex lxMiss) "zzz" = [] ∧
    findSenses (buildIndex lxMiss) "zzz" = [] ∧
    getSynonyms (buildIndex lxMiss) "zzz" = [] ∧
    getRelated (buildIndex lxMiss) ⟨"S1", "n", [], [], [], [⟨"hypernym", "S9"⟩]⟩ "meronym" = [] ∧
    getSynsetWords (buildIndex lxMiss) ⟨"SX", "n", [], [], ["ghost"], []⟩ = [] := by
  have h := queries_miss_empty (buildIndex lxMiss)
  exact ⟨h.1 "nope" (by decide), h.2.1 "nope" (by decide), h.2.2.1 "nope" (by decide),
    h.2.2.2.1 "zzz" (by decide), h.2.2.2.2.1 "zzz" (by decide),
    (h.2.2.2.2.2.1 "zzz" (by decide)).2.2.2.2,
    h.2.2.2.2.2.2.1 ⟨"S1", "n", [], [], [], [⟨"hypernym", "S9"⟩]⟩ "meronym" (by decide),
    h.2.2.2.2.2.2.2.2 ⟨"SX", "n", [], [], ["ghost"], []⟩ (by decide)⟩

/-- Spec-side: the candidate a member contributes to the synonym scan — the
written form of the first lemma of the resolved entry, provided it is nonempty
and differs case-insensitively from the query word. -/
def synonymCandidate (index : WordNetIndex) (lowerWord : String) (m : String) : Option String :=
  (mapLookup index.entries m).bind (fun e =>
    e.lemmas.head?.bind (fun l =>
      if l.writtenForm ≠ "" ∧ strLower l.writtenForm ≠ lowerWord then some l.writtenForm
      else none))

/-- Spec-side: the full candidate stream of `getSynonyms`, in synset order then
member declaration order. -/
def synonymCandidates (index : WordNetIndex) (word : String) : List String :=
  (findSynsets index word).flatMap (fun syn =>
    syn.members.filterMap (synonymCandidate index (strLower word)))

/-- Spec-side: first-occurrence deduplication against a running `seen` list;
returns the emitted elements together with the final `seen` list. -/
def firstOccP : List String → List String → List String × List String
  | [], seen => ([], seen)
  | x :: xs, seen =>
    if x ∈ seen then firstOccP xs seen
    else
      let r := firstOccP xs (seen ++ [x])
      (x :: r.1, r.2)

/-- Spec-side: first-occurrence deduplication (emitted elements only). -/
def firstOcc (xs : List String) (seen : List String) : List String :=
  (firstOccP xs seen).1

theorem firstOccP_append (a b : List String) (seen : List String) :
    firstOccP (a ++ b) seen =
      ((firstOccP a seen).1 ++ (firstOccP b (firstOccP a seen).2).1,
        (firstOccP b (firstOccP a seen).2).2) := by
  induction a generalizing seen with
  | nil => simp [firstOccP]
  | cons x xs ih =>
    by_cases hx : x ∈ seen
    · simp [firstOccP, hx, ih]
    · simp [firstOccP, hx, ih]

theorem firstOccP_subset {xs seen : List String} {x : String}
    (h : x ∈ (firstOccP xs seen).1) : x ∈ xs := by
  induction xs generalizing seen with
  | nil => simp [firstOccP] at h
  | cons y ys ih =>
    by_cases hy : y ∈ seen
    · rw [firstOccP, if_pos hy] at h
      exact List.mem_cons_of_mem y (ih h)
    · rw [firstOccP, if_neg hy] at h
      rcases List.mem_cons.mp h with h | h
      · exact h ▸ List.mem_cons_self y ys
      · exact List.mem_cons_of_mem y (ih h)

theorem firstOccP_nodup (xs : List String) (seen : List String) :
    ((firstOccP xs seen).1).Nodup ∧ ∀ x ∈ (firstOccP xs seen).1, x ∉ seen := by
  induction xs generalizing seen with
  | nil => simp [firstOccP]
  | cons y ys ih =>
    by_cases hy : y ∈ seen
    · rw [firstOccP, if_pos hy]
      exact ih seen
    · rw [firstOccP, if_neg hy]
      obtain ⟨hnd, hni⟩ := ih (seen ++ [y])
      refine ⟨List.nodup_cons.mpr ⟨fun hmem => ?_, hnd⟩, ?_⟩
      · exact hni y hmem (by simp)
      · intro x hx
        rcases List.mem_cons.mp hx with h | h
        · exact h ▸ hy
        · intro hxs
          exact hni x h (by simp [hxs])

theorem membersFold_spec (index : WordNetIndex) (lw : String) (synset : Synset) :
    ∀ (ms : List String) (seen : List String) (res : List SynonymResult),
      (ms.foldl (getSynonymsStep index lw synset) (seen, res)).1
        = (firstOccP (ms.filterMap (synonymCandidate index lw)) seen).2 ∧
      ((ms.foldl (getSynonymsStep index lw synset) (seen, res)).2).map (·.word)
        = res.map (·.word) ++ (firstOccP (ms.filterMap (synonymCandidate index lw)) seen).1 := by
  intro ms
  induction ms with
  | nil => intro seen res; simp [firstOccP]
  | cons m ms ih =>
    intro seen res
    rw [List.foldl_cons]
    cases hlook : mapLookup index.entries m with
    | none =>
      have hstep : getSynonymsStep index lw synset (seen, res) m = (seen, res) := by
        simp [getSynonymsStep, hlook]
      have hcand : synonymCandidate index lw m = none := by
        simp [synonymCandidate, hlook]
      rw [hstep, List.filterMap_cons, hcand]
      exact ih seen res
    | some entry =>
      cases hlem : entry.lemmas with
      | nil =>
        have hstep : getSynonymsStep index lw synset (seen, res) m = (seen, res) := by
          simp [getSynonymsStep, hlook, hlem]
        have hcand : synonymCandidate index lw m = none := by
          simp [synonymCandidate, hlook, hlem]
        rw [hstep, List.filterMap_cons, hcand]
        exact ih seen res
      | cons l ls =>
        by_cases hpred : l.writtenForm ≠ "" ∧ strLower l.writtenForm ≠ lw
        · have hcand : synonymCandidate index lw m = some l.writtenForm := by
            simp [synonymCandidate, hlook, hlem, hpred]
          rw [List.filterMap_cons, hcand]
          by_cases hseen : l.writtenForm ∈ seen
          · have hstep : getSynonymsStep index lw synset (seen, res) m = (seen, res) := by
              simp only [getSynonymsStep, hlook, hlem]
              rw [if_neg (fun hc => hc.2.2 hseen)]
            rw [hstep, firstOccP, if_pos hseen]
            exact ih seen res
          · have hstep : getSynonymsStep index lw synset (seen, res) m
                = (seen ++ [l.writtenForm],
                   res ++ [{ word := l.writtenForm, entry := entry, synset := synset }]) := by
              simp only [getSynonymsStep, hlook, hlem]
              rw [if_pos ⟨hpred.1, hpred.2, hseen⟩]
            rw [hstep, firstOccP, if_neg hseen]
            obtain ⟨ih1, ih2⟩ := ih (seen ++ [l.writtenForm])
              (res ++ [{ word := l.writtenForm, entry := entry, synset := synset }])
            refine ⟨ih1, ?_⟩
            rw [ih2]
            simp
        · have hcand : synonymCandidate index lw m = none := by
            simp only [synonymCandidate, hlook, hlem, Option.some_bind, List.head?_cons]
            rw [if_neg hpred]
          have hstep : getSynonymsStep index lw synset (seen, res) m = (seen, res) := by
            simp only [getSynonymsStep, hlook, hlem]
            rw [if_neg (fun hc => hpred ⟨hc.1, hc.2.1⟩)]
          rw [hstep, List.filterMap_cons, hcand]
          exact ih seen res

theorem synsetsFold_spec (index : WordNetIndex) (lw : String) :
    ∀ (syns : List Synset) (seen : List String) (res : List SynonymResult),
      (syns.foldl (fun st synset =>
          synset.members.foldl (getSynonymsStep index lw synset) st) (seen, res)).1
        = (firstOccP (syns.flatMap (fun syn =>
            syn.members.filterMap (synonymCandidate index lw))) seen).2 ∧
      ((syns.foldl (fun st synset =>
          synset.members.foldl (getSynonymsStep index lw synset) st) (seen, res)).2).map (·.word)
        = res.map (·.word) ++ (firstOccP (syns.flatMap (fun syn =>
            syn.members.filterMap (synonymCandidate index lw))) seen).1 := by
  intro syns
  induction syns with
  | nil => intro seen res; simp [firstOccP]
  | cons syn syns ih =>
    intro seen res
    rw [List.foldl_cons, List.flatMap_cons, firstOccP_append]
    obtain ⟨h1, h2⟩ := membersFold_spec index lw syn syn.members seen res
    have hpair : syn.members.foldl (getSynonymsStep index lw syn) (seen, res)
        = ((syn.members.foldl (getSynonymsStep index lw syn) (seen, res)).1,
           (syn.members.foldl (getSynonymsStep index lw syn) (seen, res)).2) := rfl
    rw [hpair, h1]
    obtain ⟨ih1, ih2⟩ := ih (firstOccP (syn.members.filterMap (synonymCandidate index lw)) seen).2
      (syn.members.foldl (getSynonymsStep index lw syn) (seen, res)).2
    refine ⟨ih1, ?_⟩
    rw [ih2, h2]
    simp

/-- C5: `getSynonyms` enumerates candidates over `findSynsets(w)` in synset
order then member declaration order; the emitted lemma strings are exactly the
first-occurrence deduplication of that candidate stream (first occurrence
wins), no result equals the query word case-insensitively, and no exact lemma
string appears twice. -/
theorem getSynonyms_spec (index : WordNetIndex) (word : String) :
    (getSynonyms index word).map (·.word) = firstOcc (synonymCandidates index word) [] ∧
    (∀ r ∈ getSynonyms index word, strLower r.word ≠ strLower word) ∧
    ((getSynonyms index word).map (·.word)).Nodup := by
  have hmain : (getSynonyms index word).map (·.word)
      = firstOcc (synonymCandidates index word) [] := by
    unfold getSynonyms synonymCandidates firstOcc
    have h := (synsetsFold_spec index (strLower word) (findSynsets index word) [] []).2
    simpa using h
  refine ⟨hmain, ?_, ?_⟩
  · intro r hr
    have hw : r.word ∈ (getSynonyms index word).map (·.word) :=
      List.mem_map_of_mem _ hr
    rw [hmain] at hw
    have hc : r.word ∈ synonymCandidates index word := firstOccP_subset hw
    simp only [synonymCandidates, List.mem_flatMap, List.mem_filterMap] at hc
    obtain ⟨syn, _, m, _, hcand⟩ := hc
    obtain ⟨e, _, hcand⟩ := Option.bind_eq_some.mp hcand
    obtain ⟨l, _, hcand⟩ := Option.bind_eq_some.mp hcand
    by_cases hp : l.writtenForm ≠ "" ∧ strLower l.writtenForm ≠ strLower word
    · rw [if_pos hp] at hcand
      rw [← Option.some_inj.mp hcand]
      exact hp.2
    · rw [if_neg hp] at hcand
      exact absurd hcand (by simp)
  · rw [hmain]
    exact (firstOccP_nodup _ []).1

/-- The entry `Happy` with senses in two synsets. -/
def happyEntry : LexicalEntry := ⟨"w1", [⟨"Happy", "a"⟩], [⟨"s1", "S1", []⟩, ⟨"s1b", "S2", []⟩]⟩

/-- An entry `glad`, member of the first synset. -/
def gladEntry : LexicalEntry := ⟨"w2", [⟨"glad", "a"⟩], [⟨"s2", "S1", []⟩]⟩

/-- A second, distinct entry with the same lemma `glad`, member of the second
synset — exercises first-occurrence deduplication. -/
def gladEntryTwo : LexicalEntry := ⟨"w3", [⟨"glad", "a"⟩], [⟨"s3", "S2", []⟩]⟩

/-- First synset for the synonym witness. -/
def synHappyOne : Synset := ⟨"S1", "a", [], [], ["w1", "w2"], []⟩

/-- Second synset for the synonym witness. -/
def synHappyTwo : Synset := ⟨"S2", "a", [], [], ["w3", "w1"], []⟩

/-- Lexicon for the synonym witness. -/
def lxSynonyms : Lexicon := ⟨[happyEntry, gladEntry, gladEntryTwo], [synHappyOne, synHappyTwo]⟩

/-- Witness for `getSynonyms_spec` on a concrete index where the query word
itself and a duplicate lemma both occur among the candidates. -/
theorem getSynonyms_spec_witness :
    strLower (SynonymResult.mk "glad" gladEntry synHappyOne).word ≠ strLower "Happy" ∧
    (getSynonyms (buildIndex lxSynonyms) "Happy").map (·.word)
      = firstOcc (synonymCandidates (buildIndex lxSynonyms) "Happy") [] ∧
    ((getSynonyms (buildIndex lxSynonyms) "Happy").map (·.word)).Nodup :=
  ⟨(getSynonyms_spec (buildIndex lxSynonyms) "Happy").2.1
      (SynonymResult.mk "glad" gladEntry synHappyOne) (by decide),
   (getSynonyms_spec (buildIndex lxSynonyms) "Happy").1,
   (getSynonyms_spec (buildIndex lxSynonyms) "Happy").2.2⟩

theorem mapSet_keys_mem {α : Type} (m : List (String × α)) (k : String) (v : α) (w : String) :
    w ∈ (mapSet m k v).map (·.1) ↔ w ∈ m.map (·.1) ∨ w = k := by
  rw [mapSet_keys]
  split
  · rename_i h
    have hk : k ∈ m.map (·.1) := by
      rcases List.any_eq_true.mp h with ⟨p, hp, hpk⟩
      exact List.mem_map.mpr ⟨p, hp, by simpa using hpk⟩
    constructor
    · exact Or.inl
    · rintro (h1 | rfl)
      · exact h1
      · exact hk
  · simp

theorem mapSet_keys_nodup {α : Type} (m : List (String × α)) (k : String) (v : α)
    (h : (m.map (·.1)).Nodup) : ((mapSet m k v).map (·.1)).Nodup := by
  rw [mapSet_keys]
  split
  · exact h
  · rename_i hn
    have hk : k ∉ m.map (·.1) := by
      intro hmem
      apply hn
      rcases List.mem_map.mp hmem with ⟨p, hp, hpk⟩
      exact List.any_eq_true.mpr ⟨p, hp, by simpa using hpk⟩
    simp [List.nodup_append, h, hk]

theorem mapLookup_of_mem_nodup {α : Type} {m : List (String × α)}
    (h : (m.map (·.1)).Nodup) {p : String × α} (hp : p ∈ m) :
    mapLookup m p.1 = some p.2 := by
  induction m with
  | nil => simp at hp
  | cons q m ih =>
    rcases List.mem_cons.mp hp with rfl | hp'
    · simp [mapLookup, List.find?]
    · rw [List.map_cons] at h
      have hhead := (List.nodup_cons.mp h).1
      have htail := (List.nodup_cons.mp h).2
      have hq : q.1 ≠ p.1 := by
        intro he
        exact hhead (by rw [he]; exact List.mem_map.mpr ⟨p, hp', rfl⟩)
      simpa [mapLookup, List.find?, hq] using ih htail hp'

theorem w2e_fold_getD (l : List LexicalEntry) :
    ∀ (m : List (String × List LexicalEntry)) (w : String),
      (mapLookup (l.foldl w2eStep m) w).getD []
        = (mapLookup m w).getD [] ++ l.filter (fun e => canonicalWordExport e = some w) := by
  induction l with
  | nil => intro m w; simp
  | cons e l ih =>
    intro m w
    rw [List.foldl_cons]
    cases hc : canonicalWordExport e with
    | none =>
      have hstep : w2eStep m e = m := by simp [w2eStep, hc]
      rw [hstep, ih, List.filter_cons]
      simp [hc]
    | some lower =>
      have hstep : w2eStep m e = mapSet m lower ((mapLookup m lower).getD [] ++ [e]) := by
        simp [w2eStep, hc]
      rw [hstep, ih]
      by_cases hw : w = lower
      · subst hw
        rw [mapLookup_mapSet_self, List.filter_cons]
        simp [hc]
      · rw [mapLookup_mapSet_ne _ _ hw, List.filter_cons]
        have hlw : ¬ lower = w := fun h2 => hw h2.symm
        have hne : ¬ (canonicalWordExport e = some w) := by
          rw [hc]
          simp [hlw]
        simp [hne]

theorem w2e_fold_keys_mem (l : List LexicalEntry) :
    ∀ (m : List (String × List LexicalEntry)) (w : String),
      w ∈ (l.foldl w2eStep m).map (·.1) ↔
        w ∈ m.map (·.1) ∨ ∃ e ∈ l, canonicalWordExport e = some w := by
  induction l with
  | nil => intro m w; simp
  | cons e l ih =>
    intro m w
    rw [List.foldl_cons]
    cases hc : canonicalWordExport e with
    | none =>
      have hstep : w2eStep m e = m := by simp [w2eStep, hc]
      rw [hstep, ih]
      simp [hc]
    | some lower =>
      have hstep : w2eStep m e = mapSet m lower ((mapLookup m lower).getD [] ++ [e]) := by
        simp [w2eStep, hc]
      rw [hstep, ih, mapSet_keys_mem]
      simp only [List.mem_cons, hc]
      constructor
      · rintro ((h1 | rfl) | ⟨e', he', hce'⟩)
        · exact Or.inl h1
        · exact Or.inr ⟨e, Or.inl rfl, hc⟩
        · exact Or.inr ⟨e', Or.inr he', hce'⟩
      · rintro (h1 | ⟨e', (rfl | he'), hce'⟩)
        · exact Or.inl (Or.inl h1)
        · rw [hc] at hce'
          exact Or.inl (Or.inr (Option.some_inj.mp hce').symm)
        · exact Or.inr ⟨e', he', hce'⟩

theorem w2e_fold_keys_nodup (l : List LexicalEntry) :
    ∀ (m : List (String × List LexicalEntry)),
      (m.map (·.1)).Nodup → ((l.foldl w2eStep m).map (·.1)).Nodup := by
  induction l with
  | nil => intro m h; exact h
  | cons e l ih =>
    intro m h
    rw [List.foldl_cons]
    cases hc : canonicalWordExport e with
    | none =>
      have hstep : w2eStep m e = m := by simp [w2eStep, hc]
      rw [hstep]
      exact ih m h
    | some lower =>
      have hstep : w2eStep m e = mapSet m lower ((mapLookup m lower).getD [] ++ [e]) := by
        simp [w2eStep, hc]
      rw [hstep]
      exact ih _ (mapSet_keys_nodup _ _ _ h)

theorem wordToEntries_lookup_eq_filter (lx : Lexicon) (w : String) {es : List LexicalEntry}
    (h : mapLookup (wordToEntries lx) w = some es) :
    es = lx.lexicalEntries.filter (fun e => canonicalWordExport e = some w) := by
  have hg := w2e_fold_getD lx.lexicalEntries [] w
  unfold wordToEntries at h
  rw [h] at hg
  simpa using hg

theorem wordToEntries_keys_nodup (lx : Lexicon) : ((wordToEntries lx).map (·.1)).Nodup :=
  w2e_fold_keys_nodup lx.lexicalEntries [] (by simp)

theorem wordToEntries_keys_mem (lx : Lexicon) (w : String) :
    w ∈ (wordToEntries lx).map (·.1) ↔
      ∃ e ∈ lx.lexicalEntries, canonicalWordExport e = some w := by
  simpa using w2e_fold_keys_mem lx.lexicalEntries [] w

theorem head?_filter_eq_find? {α : Type} (p : α → Bool) (l : List α) :
    (l.filter p).head? = l.find? p := by
  induction l with
  | nil => rfl
  | cons a l ih =>
    by_cases h : p a
    · simp [List.filter_cons, List.find?_cons_of_pos, h]
    · simp only [List.filter_cons, h, if_neg, Bool.false_eq_true, not_false_eq_true,
        List.find?_cons_of_neg, ite_false]
      exact ih

/-- Proof-side restatement of the stage-1 loop without accumulators. -/
def wordsFoldSpec (w2e : List (String × List LexicalEntry)) :
    List String → Nat → List WordRow × List (String × Nat) × Nat
  | [], n => ([], [], n)
  | w :: ws, n =>
    match mapLookup w2e w with
    | none => wordsFoldSpec w2e ws n
    | some entries =>
      let r := wordsFoldSpec w2e ws (n + 1)
      (⟨n + 1, w, wordDisplay w entries⟩ :: r.1, (w, n + 1) :: r.2.1, r.2.2)

theorem wordsFoldAux_eq_spec (w2e : List (String × List LexicalEntry)) :
    ∀ (ws : List String) (rows : List WordRow) (ids : List (String × Nat)) (n : Nat),
      wordsFoldAux w2e ws (rows, ids, n)
        = (rows ++ (wordsFoldSpec w2e ws n).1, ids ++ (wordsFoldSpec w2e ws n).2.1,
           (wordsFoldSpec w2e ws n).2.2) := by
  intro ws
  induction ws with
  | nil => intro rows ids n; simp [wordsFoldAux, wordsFoldSpec]
  | cons w ws ih =>
    intro rows ids n
    cases hl : mapLookup w2e w with
    | none => simp [wordsFoldAux, wordsFoldSpec, hl, ih]
    | some entries => simp [wordsFoldAux, wordsFoldSpec, hl, ih]

theorem wordsFoldSpec_words (w2e : List (String × List LexicalEntry)) :
    ∀ (ws : List String) (n : Nat), (∀ w ∈ ws, (mapLookup w2e w).isSome) →
      ((wordsFoldSpec w2e ws n).1).map (·.word) = ws := by
  intro ws
  induction ws with
  | nil => intro n _; rfl
  | cons w ws ih =>
    intro n hall
    cases hl : mapLookup w2e w with
    | none =>
      have := hall w (List.mem_cons_self w ws)
      rw [hl] at this
      simp at this
    | some entries =>
      simp only [wordsFoldSpec, hl, List.map_cons]
      rw [ih (n + 1) (fun v hv => hall v (List.mem_cons_of_mem w hv))]

theorem wordsFoldSpec_ids_rows (w2e : List (String × List LexicalEntry)) :
    ∀ (ws : List String) (n : Nat),
      (wordsFoldSpec w2e ws n).2.1 = ((wordsFoldSpec w2e ws n).1).map (fun r => (r.word, r.id)) := by
  intro ws
  induction ws with
  | nil => intro n; rfl
  | cons w ws ih =>
    intro n
    cases hl : mapLookup w2e w with
    | none => simp only [wordsFoldSpec, hl]; exact ih n
    | some entries => simp only [wordsFoldSpec, hl, List.map_cons]; rw [ih (n + 1)]

theorem wordsFoldSpec_row_ids (w2e : List (String × List LexicalEntry)) :
    ∀ (ws : List String) (n : Nat), (∀ w ∈ ws, (mapLookup w2e w).isSome) →
      ((wordsFoldSpec w2e ws n).1).map (·.id) = List.range' (n + 1) ws.length := by
  intro ws
  induction ws with
  | nil => intro n _; rfl
  | cons w ws ih =>
    intro n hall
    cases hl : mapLookup w2e w with
    | none =>
      have := hall w (List.mem_cons_self w ws)
      rw [hl] at this
      simp at this
    | some entries =>
      simp only [wordsFoldSpec, hl, List.map_cons, List.length_cons]
      rw [ih (n + 1) (fun v hv => hall v (List.mem_cons_of_mem w hv)), List.range'_succ]

theorem wordsFoldSpec_display (w2e : List (String × List LexicalEntry)) :
    ∀ (ws : List String) (n : Nat), ∀ r ∈ (wordsFoldSpec w2e ws n).1,
      ∃ es, mapLookup w2e r.word = some es ∧ r.display = wordDisplay r.word es := by
  intro ws
  induction ws with
  | nil => intro n r hr; simp [wordsFoldSpec] at hr
  | cons w ws ih =>
    intro n r hr
    cases hl : mapLookup w2e w with
    | none =>
      rw [wordsFoldSpec] at hr
      simp only [hl] at hr
      exact ih n r hr
    | some entries =>
      rw [wordsFoldSpec] at hr
      simp only [hl] at hr
      rcases List.mem_cons.mp hr with rfl | hr'
      · exact ⟨entries, hl, rfl⟩
      · exact ih (n + 1) r hr'

theorem wordsRows_eq_spec (lx : Lexicon) :
    wordsRows lx = (wordsFoldSpec (wordToEntries lx) (sortedWords lx) 0).1 := by
  unfold wordsRows
  rw [wordsFoldAux_eq_spec]
  simp

theorem wordIds_eq_spec (lx : Lexicon) :
    wordIds lx = (wordsFoldSpec (wordToEntries lx) (sortedWords lx) 0).2.1 := by
  unfold wordIds
  rw [wordsFoldAux_eq_spec]
  simp

theorem sortedWords_perm_keys (lx : Lexicon) :
    (sortedWords lx).Perm ((wordToEntries lx).map (·.1)) :=
  List.perm_insertionSort strLeP _

theorem sortedWords_lookup_isSome (lx : Lexicon) :
    ∀ w ∈ sortedWords lx, (mapLookup (wordToEntries lx) w).isSome := by
  intro w hw
  have hk : w ∈ (wordToEntries lx).map (·.1) := (sortedWords_perm_keys lx).subset hw
  cases ho : mapLookup (wordToEntries lx) w with
  | none => exact absurd hk ((mapLookup_eq_none _ _).mp ho)
  | some es => rfl

/-- The first entry of the lexicon (in declaration order) whose canonical
word is `w`. -/
def firstEntryForWord (lx : Lexicon) (w : String) : Option LexicalEntry :=
  lx.lexicalEntries.find? (fun e => canonicalWordExport e = some w)

/-- C6: the `words` table has exactly one row per distinct lowercase canonical
word (no duplicates; a word appears iff some entry has it as canonical word),
the rows are in lexicographically sorted order of the lowercase word, the
surrogate ids are dense integers `1, 2, …` assigned in that sorted order, and
each row's display form is the original casing of the first lemma of the first
entry encountered for that word. -/
theorem wordsTable_spec (lx : Lexicon) :
    ((wordsRows lx).map (·.word)).Nodup ∧
    List.Sorted strLeP ((wordsRows lx).map (·.word)) ∧
    (∀ w, w ∈ (wordsRows lx).map (·.word) ↔
      ∃ e ∈ lx.lexicalEntries, canonicalWordExport e = some w) ∧
    (wordsRows lx).map (·.id) = List.range' 1 (wordsRows lx).length ∧
    (∀ r ∈ wordsRows lx, ∃ e lem, firstEntryForWord lx r.word = some e ∧
      e.lemmas.head? = some lem ∧ r.display = lem.writtenForm) := by
  have hall := sortedWords_lookup_isSome lx
  have hwords : (wordsRows lx).map (·.word) = sortedWords lx := by
    rw [wordsRows_eq_spec]
    exact wordsFoldSpec_words _ _ 0 hall
  refine ⟨?_, ?_, ?_, ?_, ?_⟩
  · rw [hwords]
    exact ((sortedWords_perm_keys lx).nodup_iff).mpr (wordToEntries_keys_nodup lx)
  · rw [hwords]
    exact List.sorted_insertionSort strLeP _
  · intro w
    rw [hwords, (sortedWords_perm_keys lx).mem_iff]
    exact wordToEntries_keys_mem lx w
  · have hids := wordsFoldSpec_row_ids (wordToEntries lx) (sortedWords lx) 0 hall
    have hl2 : ((wordsFoldSpec (wordToEntries lx) (sortedWords lx) 0).1).length
        = (sortedWords lx).length := by
      have h3 := congrArg List.length (wordsFoldSpec_words (wordToEntries lx) (sortedWords lx) 0 hall)
      rw [List.length_map] at h3
      exact h3
    rw [wordsRows_eq_spec, hids, hl2]
  · intro r hr
    rw [wordsRows_eq_spec] at hr
    obtain ⟨es, hes, hdisp⟩ := wordsFoldSpec_display _ _ 0 r hr
    have hfilter := wordToEntries_lookup_eq_filter lx r.word hes
    have hkey : r.word ∈ (wordToEntries lx).map (·.1) := by
      by_contra hk
      rw [(mapLookup_eq_none _ _).mpr hk] at hes
      exact Option.noConfusion hes
    obtain ⟨e0, he0, hc0⟩ := (wordToEntries_keys_mem lx r.word).mp hkey
    have hne : es ≠ [] := by
      rw [hfilter]
      intro hnil
      have hmem0 : e0 ∈ lx.lexicalEntries.filter
          (fun e => canonicalWordExport e = some r.word) :=
        List.mem_filter.mpr ⟨he0, by simp [hc0]⟩
      rw [hnil] at hmem0
      simp at hmem0
    obtain ⟨e, es', rfl⟩ := List.exists_cons_of_ne_nil hne
    have hhead : (e :: es').head? = firstEntryForWord lx r.word := by
      rw [hfilter, head?_filter_eq_find?]
      rfl
    have hfe : firstEntryForWord lx r.word = some e := by
      rw [← hhead]
      rfl
    have hce : canonicalWordExport e = some r.word := by
      have hmm : e ∈ lx.lexicalEntries.filter
          (fun x => canonicalWordExport x = some r.word) := by
        rw [← hfilter]
        exact List.mem_cons_self _ _
      simpa using (List.mem_filter.mp hmm).2
    cases hlm : e.lemmas with
    | nil =>
      rw [canonicalWordExport, hlm] at hce
      exact Option.noConfusion hce
    | cons lem rest =>
      have hwf : lem.writtenForm ≠ "" := by
        intro hempty
        rw [canonicalWordExport, hlm] at hce
        simp [hempty] at hce
      refine ⟨e, lem, hfe, by simp [hlm], ?_⟩
      rw [hdisp]
      simp [wordDisplay, hlm, hwf]

/-- A lexicon with two distinct words and a repeated word in mixed casing, for
the `words`-table witness. -/
def lxWords : Lexicon :=
  ⟨[⟨"w1", [⟨"Banana", "n"⟩], [⟨"s1", "S1", []⟩]⟩,
    ⟨"w2", [⟨"apple", "n"⟩], [⟨"s2", "S2", []⟩]⟩,
    ⟨"w3", [⟨"BANANA", "n"⟩], [⟨"s3", "S3", []⟩]⟩], []⟩

/-- Witness for `wordsTable_spec`: on `lxWords` the row for `banana` carries
id 2 and the display casing `Banana` of the first entry, and the ids are the
dense range starting at 1. -/
theorem wordsTable_spec_witness :
    (∃ e lem, firstEntryForWord lxWords (WordRow.mk 2 "banana" "Banana").word = some e ∧
      e.lemmas.head? = some lem ∧ (WordRow.mk 2 "banana" "Banana").display = lem.writtenForm) ∧
    (wordsRows lxWords).map (·.id) = List.range' 1 (wordsRows lxWords).length :=
  ⟨(wordsTable_spec lxWords).2.2.2.2 (WordRow.mk 2 "banana" "Banana") (by decide),
   (wordsTable_spec lxWords).2.2.2.1⟩

/-- Proof-side closed form of the stage-3 sense loop: one row per sense, with
consecutive sense orders starting at `so`. -/
def emitSenses (wId : Nat) : Nat → List Sense → List WSRow
  | _, [] => []
  | so, s :: ss => ⟨wId, s.synset, so⟩ :: emitSenses wId (so + 1) ss

theorem wsSensesAux_eq (wId : Nat) :
    ∀ (ss : List Sense) (acc : List WSRow) (so : Nat),
      wsSensesAux wId ss (acc, so) = (acc ++ emitSenses wId so ss, so + ss.length) := by
  intro ss
  induction ss with
  | nil => intro acc so; simp [wsSensesAux, emitSenses]
  | cons s ss ih =>
    intro acc so
    rw [wsSensesAux, ih]
    simp only [emitSenses, List.length_cons]
    rw [Prod.mk.injEq]
    constructor
    · simp
    · omega

theorem emitSenses_append (wId : Nat) :
    ∀ (a b : List Sense) (so : Nat),
      emitSenses wId so (a ++ b) = emitSenses wId so a ++ emitSenses wId (so + a.length) b := by
  intro a
  induction a with
  | nil => intro b so; simp [emitSenses]
  | cons s a ih =>
    intro b so
    simp only [List.cons_append, emitSenses, List.length_cons, List.append_eq]
    rw [ih b (so + 1)]
    have hh : so + 1 + a.length = so + (a.length + 1) := by omega
    rw [hh]

theorem wsEntriesAux_eq (wId : Nat) :
    ∀ (es : List LexicalEntry) (acc : List WSRow) (so : Nat),
      wsEntriesAux wId es (acc, so)
        = (acc ++ emitSenses wId so (es.flatMap (·.senses)),
           so + (es.flatMap (·.senses)).length) := by
  intro es
  induction es with
  | nil => intro acc so; simp [wsEntriesAux, emitSenses]
  | cons e es ih =>
    intro acc so
    rw [wsEntriesAux, wsSensesAux_eq, ih]
    simp only [List.flatMap_cons, emitSenses_append, List.length_append]
    rw [Prod.mk.injEq]
    constructor
    · simp
    · omega

theorem emitSenses_orders (wId : Nat) :
    ∀ (ss : List Sense) (so : Nat),
      (emitSenses wId so ss).map (·.senseOrder) = List.range' so ss.length := by
  intro ss
  induction ss with
  | nil => intro so; rfl
  | cons s ss ih =>
    intro so
    simp only [emitSenses, List.map_cons, List.length_cons, List.range'_succ]
    rw [ih]

theorem emitSenses_synsets (wId : Nat) :
    ∀ (ss : List Sense) (so : Nat),
      (emitSenses wId so ss).map (·.synsetId) = ss.map (·.synset) := by
  intro ss
  induction ss with
  | nil => intro so; rfl
  | cons s ss ih =>
    intro so
    simp only [emitSenses, List.map_cons, ih]

theorem emitSenses_wordId (wId : Nat) :
    ∀ (ss : List Sense) (so : Nat) (r : WSRow), r ∈ emitSenses wId so ss → r.wordId = wId := by
  intro ss
  induction ss with
  | nil => intro so r hr; simp [emitSenses] at hr
  | cons s ss ih =>
    intro so r hr
    rcases List.mem_cons.mp hr with rfl | hr'
    · rfl
    · exact ih (so + 1) r hr'

/-- Proof-side: the rows the stage-3 loop contributes for one word group. -/
def groupEmit (ids : List (String × Nat)) (p : String × List LexicalEntry) : List WSRow :=
  match mapLookup ids p.1 with
  | none => []
  | some wId => if wId = 0 then [] else emitSenses wId 0 (p.2.flatMap (·.senses))

theorem wsWordsAux_eq (ids : List (String × Nat)) :
    ∀ (groups : List (String × List LexicalEntry)) (acc : List WSRow),
      wsWordsAux ids groups acc = acc ++ groups.flatMap (groupEmit ids) := by
  intro groups
  induction groups with
  | nil => intro acc; simp [wsWordsAux]
  | cons p groups ih =>
    intro acc
    obtain ⟨w, entries⟩ := p
    cases hl : mapLookup ids w with
    | none => simp [wsWordsAux, hl, ih, groupEmit]
    | some wId =>
      by_cases h0 : wId = 0
      · simp [wsWordsAux, hl, h0, ih, groupEmit]
      · rw [wsWordsAux]
        simp only [hl, if_neg h0]
        rw [wsEntriesAux_eq, ih]
        simp only [List.flatMap_cons]
        rw [List.append_assoc]
        congr 1
        simp [groupEmit, hl, h0]

theorem wordSynsetsEmitted_eq (lx : Lexicon) :
    wordSynsetsEmitted lx = (wordToEntries lx).flatMap (groupEmit (wordIds lx)) := by
  unfold wordSynsetsEmitted
  rw [wsWordsAux_eq]
  simp

theorem assoc_value_nodup_key_eq {α : Type} [DecidableEq α] :
    ∀ {m : List (String × α)}, (m.map (·.2)).Nodup →
      ∀ {a b : String} {x : α}, (a, x) ∈ m → (b, x) ∈ m → a = b := by
  intro m
  induction m with
  | nil => intro _ a b x ha; simp at ha
  | cons q m ih =>
    intro h a b x ha hb
    rw [List.map_cons] at h
    have hhead := (List.nodup_cons.mp h).1
    have htail := (List.nodup_cons.mp h).2
    rcases List.mem_cons.mp ha with rfl | ha'
    · rcases List.mem_cons.mp hb with heq | hb'
      · exact (congrArg Prod.fst heq).symm
      · exact absurd (List.mem_map.mpr ⟨(b, x), hb', rfl⟩) hhead
    · rcases List.mem_cons.mp hb with rfl | hb'
      · exact absurd (List.mem_map.mpr ⟨(a, x), ha', rfl⟩) hhead
      · exact ih htail ha' hb'

theorem wordIds_mem_rows (lx : Lexicon) {w : String} {wId : Nat}
    (h : mapLookup (wordIds lx) w = some wId) :
    ∃ r ∈ wordsRows lx, r.word = w ∧ r.id = wId := by
  have hmem := mapLookup_mem h
  rw [wordIds_eq_spec, wordsFoldSpec_ids_rows] at hmem
  obtain ⟨r, hr, heq⟩ := List.mem_map.mp hmem
  rw [Prod.mk.injEq] at heq
  exact ⟨r, by rw [wordsRows_eq_spec]; exact hr, heq.1, heq.2⟩

theorem wordIds_pos (lx : Lexicon) {w : String} {wId : Nat}
    (h : mapLookup (wordIds lx) w = some wId) : 1 ≤ wId := by
  obtain ⟨r, hr, hw, hid⟩ := wordIds_mem_rows lx h
  have hmem : r.id ∈ (wordsRows lx).map (·.id) := List.mem_map.mpr ⟨r, hr, rfl⟩
  rw [wordsRows_eq_spec,
    wordsFoldSpec_row_ids _ _ 0 (sortedWords_lookup_isSome lx)] at hmem
  obtain ⟨i, _, hi⟩ := List.mem_range'.mp hmem
  omega

theorem wordIds_values_nodup (lx : Lexicon) : ((wordIds lx).map (·.2)).Nodup := by
  rw [wordIds_eq_spec, wordsFoldSpec_ids_rows]
  rw [List.map_map]
  have : ((wordsFoldSpec (wordToEntries lx) (sortedWords lx) 0).1).map
      ((fun p => p.2) ∘ (fun r => (r.word, r.id)))
      = ((wordsFoldSpec (wordToEntries lx) (sortedWords lx) 0).1).map (·.id) := rfl
  rw [this, wordsFoldSpec_row_ids _ _ 0 (sortedWords_lookup_isSome lx)]
  exact List.nodup_range' _ _

theorem wordIds_inj (lx : Lexicon) {w1 w2 : String} {wId : Nat}
    (h1 : mapLookup (wordIds lx) w1 = some wId)
    (h2 : mapLookup (wordIds lx) w2 = some wId) : w1 = w2 :=
  assoc_value_nodup_key_eq (wordIds_values_nodup lx) (mapLookup_mem h1) (mapLookup_mem h2)

theorem filter_flatMap_groups (ids : List (String × Nat))
    (groups : List (String × List LexicalEntry)) (w : String)
    (entries : List LexicalEntry) (wId : Nat)
    (hmem : (w, entries) ∈ groups)
    (hnodup : (groups.map (·.1)).Nodup)
    (hkeep : ∀ r ∈ groupEmit ids (w, entries), r.wordId = wId)
    (hdrop : ∀ p ∈ groups, p.1 ≠ w → ∀ r ∈ groupEmit ids p, r.wordId ≠ wId) :
    (groups.flatMap (groupEmit ids)).filter (fun r => r.wordId = wId)
      = groupEmit ids (w, entries) := by
  induction groups with
  | nil => simp at hmem
  | cons p groups ih =>
    rw [List.map_cons] at hnodup
    have hhead := (List.nodup_cons.mp hnodup).1
    have htail := (List.nodup_cons.mp hnodup).2
    rw [List.flatMap_cons, List.filter_append]
    rcases List.mem_cons.mp hmem with heq | hmem'
    · have hfirst : (groupEmit ids p).filter (fun r => r.wordId = wId) = groupEmit ids p :=
        List.filter_eq_self.mpr (fun r hr => by simpa using hkeep r (heq ▸ hr))
      have hrest : (groups.flatMap (groupEmit ids)).filter (fun r => r.wordId = wId) = [] := by
        rw [List.filter_eq_nil_iff]
        intro r hr
        obtain ⟨q, hq, hrq⟩ := List.mem_flatMap.mp hr
        have hqw : q.1 ≠ w := by
          intro he
          apply hhead
          rw [← heq]
          exact he ▸ List.mem_map.mpr ⟨q, hq, rfl⟩
        simpa using hdrop q (List.mem_cons_of_mem p hq) hqw r hrq
      rw [hfirst, hrest, List.append_nil, heq]
    · have hp1 : p.1 ≠ w := by
        intro he
        apply hhead
        exact he ▸ List.mem_map.mpr ⟨(w, entries), hmem', rfl⟩
      have hfirst : (groupEmit ids p).filter (fun r => r.wordId = wId) = [] := by
        rw [List.filter_eq_nil_iff]
        intro r hr
        simpa using hdrop p (List.mem_cons_self p groups) hp1 r hr
      rw [hfirst, List.nil_append]
      exact ih hmem' htail (fun q hq => hdrop q (List.mem_cons_of_mem p hq))

/-- The per-word slice of the emitted `word_synsets` stream equals the closed
form `emitSenses` over the word's senses in entry-then-sense order. -/
theorem wordSynsets_filter_eq_group (lx : Lexicon) {w : String}
    {entries : List LexicalEntry} {wId : Nat}
    (hw : mapLookup (wordToEntries lx) w = some entries)
    (hid : mapLookup (wordIds lx) w = some wId) :
    (wordSynsetsEmitted lx).filter (fun r => r.wordId = wId)
      = emitSenses wId 0 (entries.flatMap (·.senses)) := by
  have hpos := wordIds_pos lx hid
  have hg : groupEmit (wordIds lx) (w, entries) = emitSenses wId 0 (entries.flatMap (·.senses)) := by
    simp only [groupEmit, hid]
    rw [if_neg (by omega)]
  rw [wordSynsetsEmitted_eq]
  rw [filter_flatMap_groups (wordIds lx) _ w entries wId (mapLookup_mem hw)
    (wordToEntries_keys_nodup lx) ?_ ?_, hg]
  · intro r hr
    rw [hg] at hr
    exact emitSenses_wordId wId _ 0 r hr
  · intro p hp hne r hr
    cases hlp : mapLookup (wordIds lx) p.1 with
    | none =>
      simp only [groupEmit, hlp] at hr
      simp at hr
    | some wId' =>
      simp only [groupEmit, hlp] at hr
      by_cases h0 : wId' = 0
      · rw [if_pos h0] at hr
        simp at hr
      · rw [if_neg h0] at hr
        have hwr := emitSenses_wordId wId' _ 0 r hr
        rw [hwr]
        intro he
        exact hne (wordIds_inj lx (he ▸ hlp) hid)

/-- C1: for every word included in stage 1, the `sense_order` values of the
`word_synsets` edges written for that word — one edge per sense of each of the
word's entries, walked in entry order then sense order — are exactly
`0, 1, …, k−1` where `k` is the number of senses walked; in particular the
first (primary) sense gets 0. -/
theorem wordSynsets_senseOrder_contiguous (lx : Lexicon) (w : String)
    (entries : List LexicalEntry) (wId : Nat)
    (hw : mapLookup (wordToEntries lx) w = some entries)
    (hid : mapLookup (wordIds lx) w = some wId) :
    ((wordSynsetsEmitted lx).filter (fun r => r.wordId = wId)).map (·.senseOrder)
      = List.range ((entries.flatMap (·.senses)).length) := by
  rw [wordSynsets_filter_eq_group lx hw hid, emitSenses_orders, List.range_eq_range']

/-- A noun entry for `tailor` with two senses. -/
def tailorNoun : LexicalEntry := ⟨"e1", [⟨"tailor", "n"⟩], [⟨"t1", "T1", []⟩, ⟨"t2", "T2", []⟩]⟩

/-- A verb entry for the same word with one sense. -/
def tailorVerb : LexicalEntry := ⟨"e2", [⟨"Tailor", "v"⟩], [⟨"t3", "T3", []⟩]⟩

/-- A lexicon in which the word `tailor` has two entries and three senses. -/
def lxTailor : Lexicon := ⟨[tailorNoun, tailorVerb], [⟨"T1", "n", [], [], ["e1"], []⟩]⟩

/-- Witness for `wordSynsets_senseOrder_contiguous`: the three senses of
`tailor` get sense orders 0, 1, 2 across its two entries. -/
theorem wordSynsets_senseOrder_contiguous_witness :
    ((wordSynsetsEmitted lxTailor).filter (fun r => r.wordId = 1)).map (·.senseOrder)
      = List.range (([tailorNoun, tailorVerb].flatMap (·.senses)).length) :=
  wordSynsets_senseOrder_contiguous lxTailor "tailor" [tailorNoun, tailorVerb] 1
    (by decide) (by decide)

/-- An entry whose second sense references a synset id that resolves to no
synset of the lexicon. -/
def entryDangling : LexicalEntry := ⟨"e1", [⟨"a", "n"⟩], [⟨"s1", "S1", []⟩, ⟨"s2", "S2", []⟩]⟩

/-- A lexicon with a dangling sense→synset reference (`S2` does not exist). -/
def lxDangling : Lexicon := ⟨[entryDangling], [⟨"S1", "n", [], [], ["e1"], []⟩]⟩

/-- C10: stage 3 emits one `word_synsets` edge per sense of each included
word's entries, carrying the sense's synset identifier verbatim with no
resolution check; consequently, on an input with a dangling sense→synset
reference the stored `word_synsets` table contains a row whose `synset_id`
appears in no row of the `synsets` table. -/
theorem wordSynsets_verbatim_dangling :
    (∀ (lx : Lexicon) (w : String) (entries : List LexicalEntry) (wId : Nat),
      mapLookup (wordToEntries lx) w = some entries →
      mapLookup (wordIds lx) w = some wId →
      ((wordSynsetsEmitted lx).filter (fun r => r.wordId = wId)).map (·.synsetId)
        = (entries.flatMap (·.senses)).map (·.synset)) ∧
    (∃ r ∈ wordSynsetsTable lxDangling,
      r.synsetId ∉ (synsetsRows lxDangling).map (·.id)) := by
  constructor
  · intro lx w entries wId hw hid
    rw [wordSynsets_filter_eq_group lx hw hid, emitSenses_synsets]
  · decide

/-- Witness for `wordSynsets_verbatim_dangling`: the synset ids emitted for
the word `a` are exactly its senses' references, the dangling `S2` included. -/
theorem wordSynsets_verbatim_dangling_witness :
    ((wordSynsetsEmitted lxDangling).filter (fun r => r.wordId = 1)).map (·.synsetId)
      = ([entryDangling].flatMap (·.senses)).map (·.synset) :=
  wordSynsets_verbatim_dangling.1 lxDangling "a" [entryDangling] 1 (by decide) (by decide)

theorem foldl_mem_invariant {α γ : Type} (P : γ → Prop) (f : List γ → α → List γ) :
    ∀ (l : List α) (acc : List γ),
      (∀ x ∈ acc, P x) →
      (∀ a ∈ l, ∀ acc2 : List γ, (∀ x ∈ acc2, P x) → ∀ x ∈ f acc2 a, P x) →
      ∀ x ∈ l.foldl f acc, P x := by
  intro l
  induction l with
  | nil => intro acc hacc _ x hx; exact hacc x hx
  | cons a l ih =>
    intro acc hacc hstep x hx
    rw [List.foldl_cons] at hx
    exact ih (f acc a) (hstep a (List.mem_cons_self a l) acc hacc)
      (fun b hb => hstep b (List.mem_cons_of_mem a hb)) x hx

theorem applyInsertIgnore_subset {ρ κ : Type} [DecidableEq κ] (keyOf : ρ → κ)
    (rows : List ρ) : ∀ r ∈ applyInsertIgnore keyOf rows, r ∈ rows := by
  unfold applyInsertIgnore
  apply foldl_mem_invariant (fun r => r ∈ rows) _ rows [] (by simp)
  intro a ha acc2 hacc2 x hx
  by_cases h : acc2.any (fun r0 => keyOf r0 = keyOf a)
  · rw [if_pos h] at hx
    exact hacc2 x hx
  · rw [if_neg h] at hx
    rcases List.mem_append.mp hx with hx | hx
    · exact hacc2 x hx
    · rw [List.mem_singleton.mp hx]
      exact ha

theorem synsetRelationsEmitted_in_used (lx : Lexicon) :
    ∀ r ∈ synsetRelationsEmitted lx,
      r.sourceId ∈ usedSynsetIds lx ∧ r.targetId ∈ usedSynsetIds lx := by
  intro r hr
  unfold synsetRelationsEmitted at hr
  refine foldl_mem_invariant
    (fun q => q.sourceId ∈ usedSynsetIds lx ∧ q.targetId ∈ usedSynsetIds lx)
    _ (usedSynsetIds lx) [] (by simp) ?_ r hr
  intro sid hsid acc2 hacc2 x hx
  cases hl : mapLookup (synsetMapOf lx) sid with
  | none =>
    simp only [hl] at hx
    exact hacc2 x hx
  | some syn =>
    simp only [hl] at hx
    rcases List.mem_append.mp hx with hx | hx
    · exact hacc2 x hx
    · obtain ⟨rel, hrel, hx⟩ := List.mem_filterMap.mp hx
      by_cases ht : rel.target ∈ usedSynsetIds lx
      · rw [if_pos ht] at hx
        rw [← Option.some_inj.mp hx]
        exact ⟨hsid, ht⟩
      · rw [if_neg ht] at hx
        exact absurd hx (by simp)

/-- A lexicon where a kept relation's target is in the reachable id set but
resolves to no synset: `S2` is referenced by a sense (so it is "included") yet
does not exist, and `S1` has a relation to it. -/
def lxDanglingRel : Lexicon :=
  ⟨[⟨"e1", [⟨"a", "n"⟩], [⟨"s1", "S1", []⟩, ⟨"s2", "S2", []⟩]⟩],
   [⟨"S1", "n", [], [], ["e1"], [⟨"hypernym", "S2"⟩]⟩]⟩

/-- C3 counterexample: it is NOT true that every `synset_relations` row has a
target that appears as a row of the `synsets` table — the relation
`S1 → S2` is kept because `S2` is in the reachable id set, but `S2` resolves
to no synset and therefore has no `synsets` row. -/
theorem synsetRelations_target_missing_cex :
    ¬ (∀ r ∈ synsetRelationsTable lxDanglingRel,
        r.targetId ∈ (synsetsRows lxDanglingRel).map (·.id)) := by
  decide

/-- C3 (amended): every row of `synset_relations` has its source and target in
the reachable id set `usedSynsetIds` (the set stage 2 is computed from);
relations to ids outside that set are dropped entirely, never substituted.
(Membership in the reachable id set does not guarantee a `synsets` row: a
dangling sense reference is reachable but unresolvable.) -/
theorem synsetRelations_targets_in_reachable (lx : Lexicon) :
    ∀ r ∈ synsetRelationsTable lx,
      r.sourceId ∈ usedSynsetIds lx ∧ r.targetId ∈ usedSynsetIds lx := by
  intro r hr
  exact synsetRelationsEmitted_in_used lx r
    (applyInsertIgnore_subset _ (synsetRelationsEmitted lx) r hr)

/-- Witness for `synsetRelations_targets_in_reachable` at the kept row
`S1 → S2` of `lxDanglingRel`. -/
theorem synsetRelations_targets_in_reachable_witness :
    (SynRelRow.mk "S1" "S2" "hypernym").sourceId ∈ usedSynsetIds lxDanglingRel ∧
    (SynRelRow.mk "S1" "S2" "hypernym").targetId ∈ usedSynsetIds lxDanglingRel :=
  synsetRelations_targets_in_reachable lxDanglingRel ⟨"S1", "S2", "hypernym"⟩ (by decide)

end SynsetLib
